import Mathlib

/-!
Shallow embedding of the csTimer visualization core
(`src/cstimer_visualization.py`) and verification of the specification's
claims about it.

Modelling conventions:
* Python floats are modelled as exact rationals (`ℚ`); the decimal strings the
  program parses denote rationals exactly.
* A csv row is modelled by the two fields the program reads, `row['Time']` and
  `row['P.1']`.
* Python exceptions are modelled with `Except PyError`; every loop over the
  rows is embedded as a recursion threading its accumulator, stopping at the
  first raised exception, exactly as the interpreter would.
* `math.sqrt` produces an irrational number in general, so `solve_stats`
  records the variance (the quantity squared on line 49 of the source) and the
  histogram builder takes the unpacked stats values (lines 61-65) as
  parameters; theorems about the standard deviation use `Real.sqrt`.
-/

deriving instance DecidableEq for Except

/- The rational operations in Batteries are marked irreducible, which blocks
evaluation of the embedded program on concrete inputs by `rfl` and `decide`;
restore the ordinary reducibility of their definitions. -/
set_option allowUnsafeReducibility true
attribute [semireducible] Rat.add Rat.mul Rat.sub Rat.inv Rat.ofScientific

namespace CsTimer

/-- Exceptions the Python runtime can raise while the program runs, plus the
spec's `NoValidRecordsError`. The source defines no exception class of its
own: `indexError` models an out-of-range subscript such as `row['Time'][0]` on
an empty string, `valueError` a failed `float(...)` conversion, and
`zeroDivisionError` a division by zero. `noValidRecordsError` is the error the
spec's taxonomy (section 7) demands; no code path of the source ever raises
it. -/
inductive PyError where
  | indexError
  | valueError
  | zeroDivisionError
  | noValidRecordsError
deriving DecidableEq, Repr

/-- One csv row, restricted to the two columns the program reads:
`row['Time']` (status/time field; a leading 'D' marks a DNF) and `row['P.1']`
(the raw time text). -/
structure Row where
  Time : String
  P1 : String
deriving DecidableEq, Repr

/-- Model of Python `s.split(sep)` for a one-character separator: the maximal
segments of the character list between occurrences of `sep`. The result is
never empty, and empty segments are kept, as in Python. -/
def splitOnChar (sep : Char) : List Char → List (List Char)
  | [] => [[]]
  | c :: rest =>
    match splitOnChar sep rest with
    | [] => [[]]
    | s :: ss => if c = sep then [] :: s :: ss else (c :: s) :: ss

/-- Numeric value of a run of decimal digit characters (most significant
first). -/
def digitsToNat (l : List Char) : ℕ :=
  l.foldl (fun a c => 10 * a + (c.toNat - 48)) 0

/-- Model of Python's built-in `float(s)` restricted to plain decimal
literals: an optional sign, then decimal digits with at most one decimal
point and at least one digit. Anything else raises `ValueError`. -/
def pyFloat (l : List Char) : Except PyError ℚ :=
  let neg : Bool := l.head? = some '-'
  let body : List Char :=
    if l.head? = some '-' ∨ l.head? = some '+' then l.tail else l
  match splitOnChar '.' body with
  | [ip] =>
    if !ip.isEmpty && ip.all Char.isDigit then
      .ok ((if neg then -1 else 1) * (digitsToNat ip : ℚ))
    else .error .valueError
  | [ip, fp] =>
    if !(ip.isEmpty && fp.isEmpty) && ip.all Char.isDigit && fp.all Char.isDigit then
      .ok ((if neg then -1 else 1) *
        ((digitsToNat ip : ℚ) + (digitsToNat fp : ℚ) / (10 : ℚ) ^ fp.length))
    else .error .valueError
  | _ => .error .valueError

/-- Embedding of `convert_to_seconds` (source lines 6-14): split the string on
':'; with exactly two components return `float(first)*60 + float(second)`,
otherwise return `float` of the final component. -/
def convert_to_seconds (time : String) : Except PyError ℚ :=
  let components := splitOnChar ':' time.data
  match components with
  | [a, b] =>
    match pyFloat a with
    | .error e => .error e
    | .ok m =>
      match pyFloat b with
      | .error e => .error e
      | .ok s => .ok (m * 60 + s)
  | _ => pyFloat (components.getLastD [])

/-- Accumulator of the first loop of `solve_stats` (source lines 23-35):
the four running values `non_dnf_solves`, `total_mean`, `total_solves` and
`fastest_solve`. -/
structure PassOne where
  non_dnf_solves : ℕ
  total_mean : ℚ
  total_solves : ℕ
  fastest_solve : ℚ
deriving DecidableEq, Repr

/-- Body of the first loop of `solve_stats` (source lines 27-35): count the
row, and if its status field does not start with 'D', parse its raw time,
add it to the running sum and update the running fastest solve. Subscripting
an empty status field raises `IndexError`, as in Python. -/
def passOneStep (st : PassOne) (row : Row) : Except PyError PassOne :=
  match row.Time.data with
  | [] => .error .indexError
  | c :: _ =>
    if c ≠ 'D' then
      match convert_to_seconds row.P1 with
      | .error e => .error e
      | .ok t =>
        if t < st.fastest_solve then
          .ok ⟨st.non_dnf_solves + 1, st.total_mean + t, st.total_solves + 1, t⟩
        else
          .ok ⟨st.non_dnf_solves + 1, st.total_mean + t, st.total_solves + 1,
               st.fastest_solve⟩
    else .ok { st with total_solves := st.total_solves + 1 }

/-- The first loop of `solve_stats`, iterating `passOneStep` over the rows and
stopping at the first raised exception. -/
def passOne : PassOne → List Row → Except PyError PassOne
  | st, [] => .ok st
  | st, row :: rest =>
    match passOneStep st row with
    | .error e => .error e
    | .ok st' => passOne st' rest

/-- Body of the second loop of `solve_stats` (source lines 44-46): for each
non-DNF row accumulate the squared deviation of its time from the mean. -/
def passTwoStep (mean acc : ℚ) (row : Row) : Except PyError ℚ :=
  match row.Time.data with
  | [] => .error .indexError
  | c :: _ =>
    if c ≠ 'D' then
      match convert_to_seconds row.P1 with
      | .error e => .error e
      | .ok t => .ok (acc + (t - mean) ^ 2)
    else .ok acc

/-- The second loop of `solve_stats`, accumulating `total_variance`. -/
def passTwo (mean : ℚ) : ℚ → List Row → Except PyError ℚ
  | acc, [] => .ok acc
  | acc, row :: rest =>
    match passTwoStep mean acc row with
    | .error e => .error e
    | .ok acc' => passTwo mean acc' rest

/-- The list `[total_solves, mean, stdev, fastest_solve, DNFs]` that
`solve_stats` returns, as a structure. The source stores
`stdev = math.sqrt(variance)` (line 49); the square root of a rational is
irrational in general, so the structure records the `variance` of line 48 and
theorems speak about `Real.sqrt variance` where the claim mentions the
standard deviation. -/
structure SolveStats where
  total_solves : ℕ
  mean : ℚ
  variance : ℚ
  fastest_solve : ℚ
  DNFs : ℕ
deriving DecidableEq, Repr

/-- Embedding of `solve_stats` (source lines 16-51) over an in-memory list of
rows. The accumulators start at `0` and the fastest solve at the sentinel
`1000000000.0` (line 24). Python raises `ZeroDivisionError` at line 37 when
`non_dnf_solves` is zero. -/
def solve_stats (rows : List Row) : Except PyError SolveStats :=
  match passOne ⟨0, 0, 0, 1000000000⟩ rows with
  | .error e => .error e
  | .ok st =>
    if st.non_dnf_solves = 0 then .error .zeroDivisionError
    else
      let mean := st.total_mean / (st.non_dnf_solves : ℚ)
      let DNFs := st.total_solves - st.non_dnf_solves
      match passTwo mean 0 rows with
      | .error e => .error e
      | .ok total_variance =>
        .ok ⟨st.total_solves, mean, total_variance / (st.non_dnf_solves : ℚ),
             st.fastest_solve, DNFs⟩

/-- Auxiliary recursion for `intRange`: the `n` integers counting up from
`lo`. -/
def rangeAux : ℤ → ℕ → List ℤ
  | _, 0 => []
  | lo, Nat.succ n => lo :: rangeAux (lo + 1) n

/-- Embedding of Python `range(lo, hi)` over integers: `lo, lo+1, ..., hi-1`,
empty when `hi ≤ lo`. -/
def intRange (lo hi : ℤ) : List ℤ := rangeAux lo (hi - lo).toNat

/-- Add `a` to the entry of the list at the given index, the effect of
Python `values[i] += a`. An out-of-range index leaves the list unchanged
(the source never indexes out of range: the list always has at least the
overflow and DNF entries). -/
def addAt : List ℕ → ℕ → ℕ → List ℕ
  | [], _, _ => []
  | x :: xs, 0, a => (x + a) :: xs
  | x :: xs, Nat.succ i, a => x :: addAt xs i a

/-- Body of the bucket-counting loop of `data_for_plot` (source lines
107-113): for each non-DNF row, if its floored time occurs in
`num_categories` increment the value at its index, otherwise increment the
second-to-last value (the overflow bucket). -/
def bucketStep (num_categories : List ℤ) (values : List ℕ) (row : Row) :
    Except PyError (List ℕ) :=
  match row.Time.data with
  | [] => .error .indexError
  | c :: _ =>
    if c ≠ 'D' then
      match convert_to_seconds row.P1 with
      | .error e => .error e
      | .ok t =>
        if ⌊t⌋ ∈ num_categories then
          .ok (addAt values (num_categories.indexOf ⌊t⌋) 1)
        else
          .ok (addAt values (values.length - 2) 1)
    else .ok values

/-- The bucket-counting loop of `data_for_plot`, iterating `bucketStep`. -/
def bucketLoop (num_categories : List ℤ) : List ℕ → List Row → Except PyError (List ℕ)
  | values, [] => .ok values
  | values, row :: rest =>
    match bucketStep num_categories values row with
    | .error e => .error e
    | .ok values' => bucketLoop num_categories values' rest

/-- Embedding of `data_for_plot` (source lines 53-117) from the point where
the five stats values have been unpacked (lines 61-65). They are parameters
here because the source's `stdev` is `math.sqrt(variance)`, irrational in
general; the composition with `solve_stats` is `data_for_plot_with` below.
`smallest` and `largest` are the floors of lines 78-79, `num_categories` and
`categories` the lists built on lines 82-87, and the returned values list
gets `DNFs` added to its last entry (line 115). -/
def data_for_plot_from (total_solves : ℕ) (mean stdev fastest_solve : ℚ)
    (DNFs : ℕ) (rows : List Row) :
    Except PyError (ℕ × ℚ × ℚ × ℚ × List String × List ℕ) :=
  let smallest : ℤ := ⌊fastest_solve⌋
  let largest : ℤ := ⌊mean + 2 * stdev⌋
  let num_categories : List ℤ := intRange smallest (largest + 1)
  let categories : List String :=
    num_categories.map toString ++ [toString (largest + 1) ++ "+", "DNF"]
  let values0 : List ℕ := List.replicate categories.length 0
  match bucketLoop num_categories values0 rows with
  | .error e => .error e
  | .ok values =>
    .ok (total_solves, mean, stdev, fastest_solve, categories,
         addAt values (values.length - 1) DNFs)

/-- `data_for_plot` as the source composes it (source line 59): run
`solve_stats` on the rows, then build the histogram from the resulting stats.
The standard deviation obtained from `math.sqrt` is abstracted as the
parameter `stdev`; the histogram depends on it only through
`⌊mean + 2*stdev⌋`, and the theorems below hold for every value of the
parameter. -/
def data_for_plot_with (stdev : ℚ) (rows : List Row) :
    Except PyError (ℕ × ℚ × ℚ × ℚ × List String × List ℕ) :=
  match solve_stats rows with
  | .error e => .error e
  | .ok s =>
    data_for_plot_from s.total_solves s.mean stdev s.fastest_solve s.DNFs rows

/-- The parsed times of the valid (non-DNF) rows, in file order. This is the
sequence every loop of the program visits: it raises the same exception, at
the same row, as the loops of `solve_stats` and `data_for_plot` do. -/
def validTimes : List Row → Except PyError (List ℚ)
  | [] => .ok []
  | row :: rest =>
    match row.Time.data with
    | [] => .error .indexError
    | c :: _ =>
      if c ≠ 'D' then
        match convert_to_seconds row.P1 with
        | .error e => .error e
        | .ok t =>
          match validTimes rest with
          | .error e => .error e
          | .ok ts => .ok (t :: ts)
      else validTimes rest

/-- One tally of the bucket-counting loop, as a pure function on the list of
values: the effect of `bucketStep` on a valid row whose parsed time is `t`. -/
def tally (num_categories : List ℤ) (values : List ℕ) (t : ℚ) : List ℕ :=
  if ⌊t⌋ ∈ num_categories then addAt values (num_categories.indexOf ⌊t⌋) 1
  else addAt values (values.length - 2) 1

/-- The index at which a valid time `t` is tallied, for a values list of
length `N`: the index of `⌊t⌋` in `num_categories` when present, otherwise
the overflow index `N - 2`. -/
def bIdx (num_categories : List ℤ) (N : ℕ) (t : ℚ) : ℕ :=
  if ⌊t⌋ ∈ num_categories then num_categories.indexOf ⌊t⌋ else N - 2

/-! ## Lemmas about the splitting of strings -/

/-- Splitting never returns the empty list of segments. -/
theorem splitOnChar_ne_nil (sep : Char) (l : List Char) : splitOnChar sep l ≠ [] := by
  induction l with
  | nil => simp [splitOnChar]
  | cons c rest ih =>
    simp only [splitOnChar]
    cases h : splitOnChar sep rest with
    | nil => simp
    | cons s ss => by_cases hc : c = sep <;> simp [hc]

/-- A list without the separator splits into the single segment it is. -/
theorem splitOnChar_of_not_mem {sep : Char} {l : List Char} (h : sep ∉ l) :
    splitOnChar sep l = [l] := by
  induction l with
  | nil => rfl
  | cons c rest ih =>
    have hc : c ≠ sep := fun hcs => h (hcs ▸ List.mem_cons_self c rest)
    have hr : sep ∉ rest := fun hm => h (List.mem_cons_of_mem _ hm)
    simp only [splitOnChar, ih hr]
    simp [hc]

/-- Splitting a concatenation at an explicit separator occurrence splits the
two halves independently. -/
theorem splitOnChar_append (sep : Char) (x y : List Char) :
    splitOnChar sep (x ++ sep :: y) = splitOnChar sep x ++ splitOnChar sep y := by
  induction x with
  | nil =>
    simp only [List.nil_append, splitOnChar]
    cases h : splitOnChar sep y with
    | nil => exact absurd h (splitOnChar_ne_nil sep y)
    | cons s ss => simp [splitOnChar]
  | cons c x ih =>
    cases h : splitOnChar sep x with
    | nil => exact absurd h (splitOnChar_ne_nil sep x)
    | cons s ss =>
      have hx : splitOnChar sep (x ++ sep :: y) = s :: (ss ++ splitOnChar sep y) := by
        rw [ih, h, List.cons_append]
      simp only [List.cons_append, splitOnChar, List.append_eq, h]
      rw [hx]
      by_cases hc : c = sep <;> simp [hc]

/-- A list containing the separator splits into at least two segments. -/
theorem two_le_splitOnChar_length {sep : Char} {l : List Char} (h : sep ∈ l) :
    2 ≤ (splitOnChar sep l).length := by
  induction l with
  | nil => cases h
  | cons c rest ih =>
    simp only [splitOnChar]
    cases hs : splitOnChar sep rest with
    | nil => exact absurd hs (splitOnChar_ne_nil sep rest)
    | cons s ss =>
      by_cases hc : c = sep
      · simp [hc]
      · rcases List.mem_cons.mp h with h1 | h2
        · exact absurd h1.symm hc
        · have := ih h2
          rw [hs] at this
          simp only [List.length_cons] at this ⊢
          simp [hc]
          omega

/-- Last element of a list ending in an appended singleton. -/
theorem getLastD_append_single {α : Type} (c : α) : ∀ (xs : List α) (d : α),
    (xs ++ [c]).getLastD d = c := by
  intro xs
  induction xs with
  | nil => intro d; rfl
  | cons x xs ih => intro d; rw [List.cons_append, List.getLastD_cons, ih]

/-! ## Claims about the Time Parser -/

/-- C4: for every well-formed time string, if it has no colon the parser
returns the string parsed directly as a float, and if it has exactly one
colon (minutes:seconds) it returns minutes*60 + seconds; in particular
"12.34" parses to 12.34 and "1:23.45" parses to 83.45. -/
theorem C4_time_parser_formats :
    (∀ (s : String) (q : ℚ), ':' ∉ s.data → pyFloat s.data = .ok q →
        convert_to_seconds s = .ok q) ∧
    (∀ (m sec : String) (qm qs : ℚ), ':' ∉ m.data → ':' ∉ sec.data →
        pyFloat m.data = .ok qm → pyFloat sec.data = .ok qs →
        convert_to_seconds (m ++ ":" ++ sec) = .ok (qm * 60 + qs)) ∧
    convert_to_seconds "12.34" = .ok 12.34 ∧
    convert_to_seconds "1:23.45" = .ok 83.45 := by
  refine ⟨?_, ?_, rfl, rfl⟩
  · intro s q hns hq
    unfold convert_to_seconds
    rw [splitOnChar_of_not_mem hns]
    exact hq
  · intro m sec qm qs hm hs hqm hqs
    have hdata : (m ++ ":" ++ sec).data = m.data ++ ':' :: sec.data := by
      simp [String.data_append]
    unfold convert_to_seconds
    rw [hdata, splitOnChar_append, splitOnChar_of_not_mem hm,
        splitOnChar_of_not_mem hs]
    show (match pyFloat m.data with
      | Except.error e => (Except.error e : Except PyError ℚ)
      | Except.ok mm =>
        match pyFloat sec.data with
        | Except.error e => Except.error e
        | Except.ok ss => Except.ok (mm * 60 + ss)) = Except.ok (qm * 60 + qs)
    rw [hqm, hqs]

/-- Witness for C4: the one-colon clause applied to "2" and "05.5". -/
theorem C4_time_parser_formats_witness :
    convert_to_seconds ("2" ++ ":" ++ "05.5") = .ok ((2 : ℚ) * 60 + 5.5) :=
  C4_time_parser_formats.2.1 "2" "05.5" 2 5.5 (by decide) (by decide) rfl rfl

/-- C5 counterexample: "1:1:1" contains two colons and is well-formed, but
the program returns float of the final segment only (1.0), not the claimed
1*60 + 1 = 61.0 built from the last two segments. -/
theorem C5_counterexample :
    convert_to_seconds "1:1:1" = .ok 1 ∧
    decide (convert_to_seconds "1:1:1" = .ok ((1 : ℚ) * 60 + 1)) = false :=
  ⟨rfl, rfl⟩

/-- C5 amended: for every time string with two or more colons, the parser
returns float of the final colon-delimited segment only, ignoring every
leading segment (the source's `len(components) == 2` test fails, so the
`else` branch returns `float(components[-1])`). -/
theorem C5_multi_colon_last_segment (p sec : String) (q : ℚ)
    (hp : ':' ∈ p.data) (hs : ':' ∉ sec.data) (hq : pyFloat sec.data = .ok q) :
    convert_to_seconds (p ++ ":" ++ sec) = .ok q := by
  have hdata : (p ++ ":" ++ sec).data = p.data ++ ':' :: sec.data := by
    simp [String.data_append]
  have h2 := two_le_splitOnChar_length hp
  obtain ⟨a, b, rest, hsplit⟩ :
      ∃ a b rest, splitOnChar ':' p.data = a :: b :: rest := by
    cases hsp : splitOnChar ':' p.data with
    | nil => rw [hsp] at h2; simp at h2
    | cons a l =>
      cases l with
      | nil => rw [hsp] at h2; simp at h2
      | cons b rest => exact ⟨a, b, rest, rfl⟩
  unfold convert_to_seconds
  rw [hdata, splitOnChar_append, splitOnChar_of_not_mem hs, hsplit]
  cases rest with
  | nil =>
    show pyFloat ([a, b, sec.data].getLastD []) = .ok q
    exact hq
  | cons r rs =>
    show pyFloat ((a :: b :: r :: (rs ++ [sec.data])).getLastD []) = .ok q
    rw [List.getLastD_cons, List.getLastD_cons, List.getLastD_cons,
        getLastD_append_single]
    exact hq

/-- Witness for the amended C5: "1:02:03.5" parses to 3.5, the final
segment alone. -/
theorem C5_multi_colon_last_segment_witness :
    convert_to_seconds ("1:02" ++ ":" ++ "03.5") = .ok 3.5 :=
  C5_multi_colon_last_segment "1:02" "03.5" 3.5 (by decide) (by decide) rfl

/-! ## The loops of the Statistics Engine in terms of the valid times -/

/-- A row with an empty status field makes `validTimes` raise `IndexError`. -/
theorem validTimes_nil_time (row : Row) (rest : List Row)
    (hd : row.Time.data = []) :
    validTimes (row :: rest) = .error .indexError := by
  simp only [validTimes, hd]

/-- A DNF row contributes nothing to `validTimes`. -/
theorem validTimes_dnf (row : Row) (rest : List Row) (cs : List Char)
    (hd : row.Time.data = 'D' :: cs) :
    validTimes (row :: rest) = validTimes rest := by
  simp only [validTimes, hd]
  simp

/-- A valid row whose raw time fails to parse makes `validTimes` raise the
parse error. -/
theorem validTimes_parse_error (row : Row) (rest : List Row) (c : Char)
    (cs : List Char) (hd : row.Time.data = c :: cs) (hD : c ≠ 'D')
    (e : PyError) (hconv : convert_to_seconds row.P1 = .error e) :
    validTimes (row :: rest) = .error e := by
  simp only [validTimes, hd]
  rw [if_pos hD, hconv]

/-- A valid row whose raw time parses to `t` prepends `t` to the valid times
of the remaining rows. -/
theorem validTimes_valid (row : Row) (rest : List Row) (c : Char)
    (cs : List Char) (hd : row.Time.data = c :: cs) (hD : c ≠ 'D')
    (t : ℚ) (hconv : convert_to_seconds row.P1 = .ok t) :
    validTimes (row :: rest) =
      match validTimes rest with
      | .error e => .error e
      | .ok ts => .ok (t :: ts) := by
  simp only [validTimes, hd]
  rw [if_pos hD, hconv]

/-- `passOneStep` on a row with an empty status field. -/
theorem passOneStep_nil_time (st : PassOne) (row : Row)
    (hd : row.Time.data = []) :
    passOneStep st row = .error .indexError := by
  simp only [passOneStep, hd]

/-- `passOneStep` on a DNF row only counts the solve. -/
theorem passOneStep_dnf (st : PassOne) (row : Row) (cs : List Char)
    (hd : row.Time.data = 'D' :: cs) :
    passOneStep st row = .ok { st with total_solves := st.total_solves + 1 } := by
  simp only [passOneStep, hd]
  simp

/-- `passOneStep` on a valid row whose raw time fails to parse. -/
theorem passOneStep_parse_error (st : PassOne) (row : Row) (c : Char)
    (cs : List Char) (hd : row.Time.data = c :: cs) (hD : c ≠ 'D')
    (e : PyError) (hconv : convert_to_seconds row.P1 = .error e) :
    passOneStep st row = .error e := by
  simp only [passOneStep, hd]
  rw [if_pos hD, hconv]

/-- `passOneStep` on a valid row whose raw time parses to `t`: the counters
advance and the running fastest becomes the minimum of `t` and the previous
fastest. -/
theorem passOneStep_valid (st : PassOne) (row : Row) (c : Char)
    (cs : List Char) (hd : row.Time.data = c :: cs) (hD : c ≠ 'D')
    (t : ℚ) (hconv : convert_to_seconds row.P1 = .ok t) :
    passOneStep st row =
      .ok ⟨st.non_dnf_solves + 1, st.total_mean + t, st.total_solves + 1,
           min t st.fastest_solve⟩ := by
  simp only [passOneStep, hd]
  rw [if_pos hD, hconv]
  by_cases hf : t < st.fastest_solve
  · rw [min_eq_left hf.le]
    exact if_pos hf
  · rw [min_eq_right (not_lt.mp hf)]
    exact if_neg hf

/-- The first loop of `solve_stats` in terms of the valid times: it counts
all rows, counts and sums the valid times, and folds the minimum of the
valid times into the initial fastest value. -/
theorem passOne_eq (rows : List Row) : ∀ st : PassOne,
    passOne st rows =
      match validTimes rows with
      | .error e => .error e
      | .ok ts =>
        .ok ⟨st.non_dnf_solves + ts.length, st.total_mean + ts.sum,
             st.total_solves + rows.length,
             ts.foldl (fun f t => min t f) st.fastest_solve⟩ := by
  induction rows with
  | nil => intro st; simp [passOne, validTimes]
  | cons row rest ih =>
    intro st
    simp only [passOne]
    cases hd : row.Time.data with
    | nil => rw [passOneStep_nil_time st row hd, validTimes_nil_time row rest hd]
    | cons c cs =>
      by_cases hD : c = 'D'
      · subst hD
        simp only [passOneStep_dnf st row cs hd, validTimes_dnf row rest cs hd]
        rw [ih]
        cases validTimes rest with
        | error e => rfl
        | ok ts =>
          simp only [Except.ok.injEq, PassOne.mk.injEq, List.length_cons]
          repeat' apply And.intro
          all_goals first
          | rfl
          | omega
          | ring_nf
      · cases hconv : convert_to_seconds row.P1 with
        | error e =>
          rw [passOneStep_parse_error st row c cs hd hD e hconv,
              validTimes_parse_error row rest c cs hd hD e hconv]
        | ok t =>
          simp only [passOneStep_valid st row c cs hd hD t hconv,
            validTimes_valid row rest c cs hd hD t hconv]
          rw [ih]
          cases validTimes rest with
          | error e => rfl
          | ok ts =>
            simp only [Except.ok.injEq, PassOne.mk.injEq, List.length_cons,
              List.sum_cons, List.foldl_cons]
            repeat' apply And.intro
            all_goals first
            | rfl
            | omega
            | ring_nf

/-- The first loop from its initial state (source lines 23-24). -/
theorem passOne_init_eq (rows : List Row) :
    passOne ⟨0, 0, 0, 1000000000⟩ rows =
      match validTimes rows with
      | .error e => .error e
      | .ok ts =>
        .ok ⟨ts.length, ts.sum, rows.length,
             ts.foldl (fun f t => min t f) 1000000000⟩ := by
  rw [passOne_eq]
  cases validTimes rows with
  | error e => rfl
  | ok ts => simp

/-- `passTwoStep` on a row with an empty status field. -/
theorem passTwoStep_nil_time (mean acc : ℚ) (row : Row)
    (hd : row.Time.data = []) :
    passTwoStep mean acc row = .error .indexError := by
  simp only [passTwoStep, hd]

/-- `passTwoStep` on a DNF row leaves the accumulator unchanged. -/
theorem passTwoStep_dnf (mean acc : ℚ) (row : Row) (cs : List Char)
    (hd : row.Time.data = 'D' :: cs) :
    passTwoStep mean acc row = .ok acc := by
  simp only [passTwoStep, hd]
  simp

/-- `passTwoStep` on a valid row whose raw time fails to parse. -/
theorem passTwoStep_parse_error (mean acc : ℚ) (row : Row) (c : Char)
    (cs : List Char) (hd : row.Time.data = c :: cs) (hD : c ≠ 'D')
    (e : PyError) (hconv : convert_to_seconds row.P1 = .error e) :
    passTwoStep mean acc row = .error e := by
  simp only [passTwoStep, hd]
  rw [if_pos hD, hconv]

/-- `passTwoStep` on a valid row whose raw time parses to `t`. -/
theorem passTwoStep_valid (mean acc : ℚ) (row : Row) (c : Char)
    (cs : List Char) (hd : row.Time.data = c :: cs) (hD : c ≠ 'D')
    (t : ℚ) (hconv : convert_to_seconds row.P1 = .ok t) :
    passTwoStep mean acc row = .ok (acc + (t - mean) ^ 2) := by
  simp only [passTwoStep, hd]
  rw [if_pos hD, hconv]

/-- The second loop of `solve_stats` in terms of the valid times: it adds the
sum of squared deviations from `mean` to the accumulator. -/
theorem passTwo_eq (mean : ℚ) (rows : List Row) : ∀ acc : ℚ,
    passTwo mean acc rows =
      match validTimes rows with
      | .error e => .error e
      | .ok ts => .ok (acc + (ts.map (fun t => (t - mean) ^ 2)).sum) := by
  induction rows with
  | nil => intro acc; simp [passTwo, validTimes]
  | cons row rest ih =>
    intro acc
    simp only [passTwo]
    cases hd : row.Time.data with
    | nil => rw [passTwoStep_nil_time mean acc row hd, validTimes_nil_time row rest hd]
    | cons c cs =>
      by_cases hD : c = 'D'
      · subst hD
        simp only [passTwoStep_dnf mean acc row cs hd, validTimes_dnf row rest cs hd]
        rw [ih]
      · cases hconv : convert_to_seconds row.P1 with
        | error e =>
          rw [passTwoStep_parse_error mean acc row c cs hd hD e hconv,
              validTimes_parse_error row rest c cs hd hD e hconv]
        | ok t =>
          simp only [passTwoStep_valid mean acc row c cs hd hD t hconv,
            validTimes_valid row rest c cs hd hD t hconv]
          rw [ih]
          cases validTimes rest with
          | error e => rfl
          | ok ts =>
            simp only [Except.ok.injEq, List.map_cons, List.sum_cons]
            ring

/-- `solve_stats` in terms of the valid times: error out exactly when a loop
raises, then `ZeroDivisionError` when no valid time exists, otherwise the
stats of the claim: mean is the sum over the count, variance the mean squared
deviation, fastest the minimum folded into the sentinel, and the counts. -/
theorem solve_stats_eq (rows : List Row) :
    solve_stats rows =
      match validTimes rows with
      | .error e => .error e
      | .ok ts =>
        if ts.length = 0 then .error .zeroDivisionError
        else
          .ok ⟨rows.length, ts.sum / (ts.length : ℚ),
               ((ts.map (fun t => (t - ts.sum / (ts.length : ℚ)) ^ 2)).sum) /
                 (ts.length : ℚ),
               ts.foldl (fun f t => min t f) 1000000000,
               rows.length - ts.length⟩ := by
  unfold solve_stats
  rw [passOne_init_eq]
  cases hvt : validTimes rows with
  | error e => rfl
  | ok ts =>
    show (if ts.length = 0 then (.error .zeroDivisionError : Except PyError SolveStats)
      else
        match passTwo (ts.sum / (ts.length : ℚ)) 0 rows with
        | .error e => .error e
        | .ok total_variance =>
          .ok ⟨rows.length, ts.sum / (ts.length : ℚ),
               total_variance / (ts.length : ℚ),
               ts.foldl (fun f t => min t f) 1000000000,
               rows.length - ts.length⟩) = _
    by_cases hlen : ts.length = 0
    · rw [if_pos hlen]
      simp [hlen]
    · rw [if_neg hlen, passTwo_eq, hvt]
      simp [hlen]

/-- Folding the minimum leaves the initial value unchanged when it bounds the
list from below. -/
theorem foldl_min_of_le (ts : List ℚ) : ∀ init : ℚ, (∀ x ∈ ts, init ≤ x) →
    ts.foldl (fun f t => min t f) init = init := by
  induction ts with
  | nil => intro init _; rfl
  | cons t ts ih =>
    intro init h
    rw [List.foldl_cons, min_eq_right (h t (List.mem_cons_self t ts)),
        ih init (fun x hx => h x (List.mem_cons_of_mem t hx))]

/-- The fold of the minimum is either the initial value or an element of the
list. -/
theorem foldl_min_mem (ts : List ℚ) : ∀ init : ℚ,
    ts.foldl (fun f t => min t f) init = init ∨
      ts.foldl (fun f t => min t f) init ∈ ts := by
  induction ts with
  | nil => intro init; exact Or.inl rfl
  | cons t ts ih =>
    intro init
    rw [List.foldl_cons]
    rcases ih (min t init) with h | h
    · rcases min_choice t init with h2 | h2
      · rw [h, h2]
        exact Or.inr (List.mem_cons_self t ts)
      · rw [h, h2]
        exact Or.inl rfl
    · exact Or.inr (List.mem_cons_of_mem t h)

/-- The fold of the minimum is a lower bound of the initial value and of the
list. -/
theorem foldl_min_le (ts : List ℚ) : ∀ init : ℚ,
    ts.foldl (fun f t => min t f) init ≤ init ∧
      ∀ x ∈ ts, ts.foldl (fun f t => min t f) init ≤ x := by
  induction ts with
  | nil => intro init; exact ⟨le_refl init, by simp⟩
  | cons t ts ih =>
    intro init
    rw [List.foldl_cons]
    obtain ⟨h1, h2⟩ := ih (min t init)
    refine ⟨h1.trans (min_le_right t init), ?_⟩
    intro x hx
    rcases List.mem_cons.mp hx with rfl | hx
    · exact h1.trans (min_le_left x init)
    · exact h2 x hx

/-! ## Claims about the Statistics Engine -/

/-- C1: the claim says an input with no valid record makes the engine fail
with NoValidRecordsError and not with an unchecked division by zero. The
source defines no NoValidRecordsError: on the all-failure input [DNF, DNF]
the mean computation `total_mean/non_dnf_solves` (line 37) divides by zero,
so the program raises ZeroDivisionError, which is not the claimed error. -/
theorem C1_all_failure_raises_zero_division :
    solve_stats [⟨"DNF", "0.0"⟩, ⟨"DNF", "0.0"⟩] = .error .zeroDivisionError ∧
    solve_stats [] = .error .zeroDivisionError ∧
    decide (PyError.zeroDivisionError = PyError.noValidRecordsError) = false :=
  ⟨rfl, rfl, rfl⟩

/-- C7 counterexample: on the single valid record with time 2000000000.0 the
engine returns fastest = 1000000000.0, the sentinel, which is not the
minimum valid time 2000000000.0 — so "fastest is the minimum valid time"
fails as stated. -/
theorem C7_counterexample :
    (solve_stats [⟨"2000000000.0", "2000000000.0"⟩]).map SolveStats.fastest_solve =
      .ok 1000000000 ∧
    validTimes [⟨"2000000000.0", "2000000000.0"⟩] = .ok [2000000000] ∧
    decide ((1000000000 : ℚ) = 2000000000) = false :=
  ⟨rfl, rfl, rfl⟩

/-- C7 amended: the engine computes the population statistics: the mean is
the sum of the valid times over their count, the variance is the mean squared
deviation with divisor `valid_count` (not `valid_count - 1`), the standard
deviation of line 49 is the nonnegative real square root of that variance,
`total_count` counts all rows and `failure_count = total_count - valid_count`;
and the fastest solve is the minimum valid time provided at least one valid
time does not exceed the internal sentinel 10⁹ (the claim fails without this
proviso; see the counterexample). -/
theorem C7_population_stats (rows : List Row) (ts : List ℚ) (s : SolveStats)
    (hvt : validTimes rows = .ok ts) (hs : solve_stats rows = .ok s) :
    s.total_solves = rows.length ∧
    s.DNFs = rows.length - ts.length ∧
    s.mean = ts.sum / (ts.length : ℚ) ∧
    s.variance = (ts.map (fun t => (t - s.mean) ^ 2)).sum / (ts.length : ℚ) ∧
    0 ≤ s.variance ∧
    Real.sqrt (s.variance : ℝ) ^ 2 = (s.variance : ℝ) ∧
    ((∃ x ∈ ts, x ≤ 1000000000) →
      s.fastest_solve ∈ ts ∧ ∀ x ∈ ts, s.fastest_solve ≤ x) := by
  rw [solve_stats_eq, hvt] at hs
  by_cases hlen : ts.length = 0
  · simp [hlen] at hs
  · simp only [hlen, if_false] at hs
    obtain rfl := Except.ok.inj hs
    have hvar : (0 : ℚ) ≤
        (ts.map (fun t => (t - ts.sum / (ts.length : ℚ)) ^ 2)).sum / (ts.length : ℚ) := by
      apply div_nonneg
      · apply List.sum_nonneg
        intro x hx
        obtain ⟨t, _, rfl⟩ := List.mem_map.mp hx
        exact sq_nonneg _
      · exact Nat.cast_nonneg _
    refine ⟨rfl, rfl, rfl, rfl, hvar, ?_, ?_⟩
    · exact Real.sq_sqrt (by exact_mod_cast hvar)
    · rintro ⟨x₀, hx₀, hle⟩
      obtain ⟨hinit, hbound⟩ := foldl_min_le ts 1000000000
      rcases foldl_min_mem ts 1000000000 with heq | hmem
      · have h1 : ts.foldl (fun f t => min t f) 1000000000 = x₀ :=
          le_antisymm (hbound x₀ hx₀) (by rw [heq]; exact hle)
        exact ⟨h1 ▸ hx₀, hbound⟩
      · exact ⟨hmem, hbound⟩

/-- Witness for the amended C7: the worked example of the spec, records
[12.1, 13.5, DNF, 14.0], giving total 4, mean 13.2, fastest 12.1, one DNF,
and variance 97/150 (stdev ≈ 0.787). -/
theorem C7_population_stats_witness :
    validTimes [⟨"12.1", "12.1"⟩, ⟨"13.5", "13.5"⟩, ⟨"DNF", "10.0"⟩, ⟨"14.0", "14.0"⟩] =
      .ok [12.1, 13.5, 14.0] ∧
    solve_stats [⟨"12.1", "12.1"⟩, ⟨"13.5", "13.5"⟩, ⟨"DNF", "10.0"⟩, ⟨"14.0", "14.0"⟩] =
      .ok ⟨4, 13.2, 97/150, 12.1, 1⟩ ∧
    (⟨4, 13.2, 97/150, 12.1, 1⟩ : SolveStats).mean =
      ([12.1, 13.5, 14.0] : List ℚ).sum / (([12.1, 13.5, 14.0] : List ℚ).length : ℚ) := by
  have h1 : validTimes
      [⟨"12.1", "12.1"⟩, ⟨"13.5", "13.5"⟩, ⟨"DNF", "10.0"⟩, ⟨"14.0", "14.0"⟩] =
      .ok [12.1, 13.5, 14.0] := rfl
  have h2 : solve_stats
      [⟨"12.1", "12.1"⟩, ⟨"13.5", "13.5"⟩, ⟨"DNF", "10.0"⟩, ⟨"14.0", "14.0"⟩] =
      .ok ⟨4, 13.2, 97/150, 12.1, 1⟩ := rfl
  exact ⟨h1, h2, (C7_population_stats _ _ _ h1 h2).2.2.1⟩

/-- C10: when every valid time is at least the sentinel 1000000000.0 the
engine returns the sentinel as the fastest solve, and when every valid time
strictly exceeds it the returned fastest is not the time of any record and is
smaller than every valid time. -/
theorem C10_sentinel_fastest (rows : List Row) (ts : List ℚ) (s : SolveStats)
    (hvt : validTimes rows = .ok ts) (hs : solve_stats rows = .ok s)
    (hge : ∀ x ∈ ts, 1000000000 ≤ x) :
    s.fastest_solve = 1000000000 ∧
    ((∀ x ∈ ts, 1000000000 < x) →
      s.fastest_solve ∉ ts ∧ ∀ x ∈ ts, s.fastest_solve < x) := by
  rw [solve_stats_eq, hvt] at hs
  by_cases hlen : ts.length = 0
  · simp [hlen] at hs
  · simp only [hlen, if_false] at hs
    obtain rfl := Except.ok.inj hs
    have hf : (⟨rows.length, ts.sum / (ts.length : ℚ),
        ((ts.map (fun t => (t - ts.sum / (ts.length : ℚ)) ^ 2)).sum) / (ts.length : ℚ),
        ts.foldl (fun f t => min t f) 1000000000,
        rows.length - ts.length⟩ : SolveStats).fastest_solve =
        ts.foldl (fun f t => min t f) 1000000000 := rfl
    rw [hf, foldl_min_of_le ts 1000000000 hge]
    refine ⟨rfl, fun hgt => ⟨?_, hgt⟩⟩
    intro hmem
    exact absurd rfl (hgt 1000000000 hmem).ne'

/-- Witness for C10: a single valid record of 2000000000.0 seconds. -/
theorem C10_sentinel_fastest_witness :
    validTimes [⟨"2000000000.0", "2000000000.0"⟩] = .ok [2000000000] ∧
    solve_stats [⟨"2000000000.0", "2000000000.0"⟩] =
      .ok ⟨1, 2000000000, 0, 1000000000, 0⟩ ∧
    (∀ x ∈ ([2000000000] : List ℚ), 1000000000 ≤ x) ∧
    (⟨1, 2000000000, 0, 1000000000, 0⟩ : SolveStats).fastest_solve = 1000000000 :=
  ⟨rfl, rfl, by norm_num,
    (C10_sentinel_fastest [⟨"2000000000.0", "2000000000.0"⟩] [2000000000]
      ⟨1, 2000000000, 0, 1000000000, 0⟩ rfl rfl (by norm_num)).1⟩

/-! ## Lemmas about the Histogram Builder -/

/-- `addAt` preserves the length. -/
theorem addAt_length : ∀ (v : List ℕ) (i a : ℕ), (addAt v i a).length = v.length := by
  intro v
  induction v with
  | nil => intro i a; rfl
  | cons x xs ih =>
    intro i a
    cases i with
    | zero => rfl
    | succ j => simp [addAt, ih]

/-- The entries of `addAt`: the entry at an in-range target index grows by
`a`, every other entry is unchanged. -/
theorem addAt_getD : ∀ (v : List ℕ) (i a k : ℕ),
    (addAt v i a).getD k 0 = v.getD k 0 + if k = i ∧ i < v.length then a else 0 := by
  intro v
  induction v with
  | nil => intro i a k; simp [addAt]
  | cons x xs ih =>
    intro i a k
    cases i with
    | zero =>
      cases k with
      | zero => simp [addAt]
      | succ kk => simp [addAt]
    | succ j =>
      cases k with
      | zero => simp [addAt]
      | succ kk =>
        simp only [addAt, List.getD_cons_succ, ih, List.length_cons]
        congr 1
        apply if_congr _ rfl rfl
        omega

/-- The sum of `addAt`: grows by `a` exactly when the index is in range. -/
theorem addAt_sum : ∀ (v : List ℕ) (i a : ℕ),
    (addAt v i a).sum = v.sum + if i < v.length then a else 0 := by
  intro v
  induction v with
  | nil => intro i a; simp [addAt]
  | cons x xs ih =>
    intro i a
    cases i with
    | zero => simp [addAt, List.sum_cons]; omega
    | succ j =>
      simp only [addAt, List.sum_cons, ih, List.length_cons]
      split_ifs with h1 h2 <;> omega

/-- Length of `rangeAux`. -/
theorem rangeAux_length : ∀ (n : ℕ) (lo : ℤ), (rangeAux lo n).length = n := by
  intro n
  induction n with
  | zero => intro lo; rfl
  | succ m ih => intro lo; simp [rangeAux, ih]

/-- Membership in `rangeAux` is the integer interval `[lo, lo + n)`. -/
theorem mem_rangeAux : ∀ (n : ℕ) (lo i : ℤ),
    i ∈ rangeAux lo n ↔ lo ≤ i ∧ i < lo + n := by
  intro n
  induction n with
  | zero => intro lo i; simp [rangeAux]
  | succ m ih =>
    intro lo i
    simp only [rangeAux, List.mem_cons, ih]
    omega

/-- The entries of `rangeAux`. -/
theorem rangeAux_getElem? : ∀ (n : ℕ) (lo : ℤ) (k : ℕ),
    (rangeAux lo n)[k]? = if k < n then some (lo + k) else none := by
  intro n
  induction n with
  | zero => intro lo k; simp [rangeAux]
  | succ m ih =>
    intro lo k
    cases k with
    | zero => simp [rangeAux]
    | succ kk =>
      simp only [rangeAux, List.getElem?_cons_succ, ih]
      have hiff : kk < m ↔ kk + 1 < m + 1 := by omega
      by_cases h : kk < m
      · rw [if_pos h, if_pos (hiff.mp h)]
        congr 1
        push_cast
        ring
      · rw [if_neg h, if_neg (fun hc => h (hiff.mpr hc))]

/-- The index of a member of `rangeAux`, as computed by Python
`list.index`. -/
theorem rangeAux_indexOf : ∀ (n : ℕ) (lo i : ℤ), lo ≤ i → i < lo + n →
    (rangeAux lo n).indexOf i = (i - lo).toNat := by
  intro n
  induction n with
  | zero => intro lo i h1 h2; simp at h2; omega
  | succ m ih =>
    intro lo i h1 h2
    simp only [rangeAux]
    by_cases hi : i = lo
    · subst hi
      simp [List.indexOf_cons_self]
    · rw [List.indexOf_cons_ne _ (fun hc => hi hc.symm),
          ih (lo + 1) i (by omega) (by omega)]
      omega

/-- A single tally is an `addAt` at the tallying index. -/
theorem tally_eq_addAt (nc : List ℤ) (v : List ℕ) (t : ℚ) :
    tally nc v t = addAt v (bIdx nc v.length t) 1 := by
  unfold tally bIdx
  by_cases h : ⌊t⌋ ∈ nc <;> simp [h]

/-- `bucketStep` on a row with an empty status field. -/
theorem bucketStep_nil_time (nc : List ℤ) (v : List ℕ) (row : Row)
    (hd : row.Time.data = []) : bucketStep nc v row = .error .indexError := by
  simp only [bucketStep, hd]

/-- `bucketStep` on a DNF row leaves the values unchanged. -/
theorem bucketStep_dnf (nc : List ℤ) (v : List ℕ) (row : Row) (cs : List Char)
    (hd : row.Time.data = 'D' :: cs) : bucketStep nc v row = .ok v := by
  simp only [bucketStep, hd]
  simp

/-- `bucketStep` on a valid row whose raw time fails to parse. -/
theorem bucketStep_parse_error (nc : List ℤ) (v : List ℕ) (row : Row)
    (c : Char) (cs : List Char) (hd : row.Time.data = c :: cs) (hD : c ≠ 'D')
    (e : PyError) (hconv : convert_to_seconds row.P1 = .error e) :
    bucketStep nc v row = .error e := by
  simp only [bucketStep, hd]
  rw [if_pos hD, hconv]

/-- `bucketStep` on a valid row whose raw time parses to `t` performs one
tally. -/
theorem bucketStep_valid (nc : List ℤ) (v : List ℕ) (row : Row)
    (c : Char) (cs : List Char) (hd : row.Time.data = c :: cs) (hD : c ≠ 'D')
    (t : ℚ) (hconv : convert_to_seconds row.P1 = .ok t) :
    bucketStep nc v row = .ok (tally nc v t) := by
  simp only [bucketStep, hd]
  rw [if_pos hD, hconv]
  show (if ⌊t⌋ ∈ nc then (.ok (addAt v (nc.indexOf ⌊t⌋) 1) : Except PyError (List ℕ))
        else .ok (addAt v (v.length - 2) 1)) = .ok (tally nc v t)
  unfold tally
  by_cases hm : ⌊t⌋ ∈ nc
  · rw [if_pos hm, if_pos hm]
  · rw [if_neg hm, if_neg hm]

/-- The bucket-counting loop in terms of the valid times: a fold of `tally`
over them. -/
theorem bucketLoop_eq (nc : List ℤ) (rows : List Row) : ∀ v : List ℕ,
    bucketLoop nc v rows =
      match validTimes rows with
      | .error e => .error e
      | .ok ts => .ok (ts.foldl (tally nc) v) := by
  induction rows with
  | nil => intro v; simp [bucketLoop, validTimes]
  | cons row rest ih =>
    intro v
    simp only [bucketLoop]
    cases hd : row.Time.data with
    | nil => rw [bucketStep_nil_time nc v row hd, validTimes_nil_time row rest hd]
    | cons c cs =>
      by_cases hD : c = 'D'
      · subst hD
        simp only [bucketStep_dnf nc v row cs hd, validTimes_dnf row rest cs hd]
        rw [ih]
      · cases hconv : convert_to_seconds row.P1 with
        | error e =>
          rw [bucketStep_parse_error nc v row c cs hd hD e hconv,
              validTimes_parse_error row rest c cs hd hD e hconv]
        | ok t =>
          simp only [bucketStep_valid nc v row c cs hd hD t hconv,
            validTimes_valid row rest c cs hd hD t hconv]
          rw [ih]
          cases validTimes rest with
          | error e => rfl
          | ok ts => simp [List.foldl_cons]

/-- The fold of `tally` is a fold of `addAt` at the fixed-length tallying
index. -/
theorem foldl_tally_eq (nc : List ℤ) (N : ℕ) (ts : List ℚ) : ∀ v : List ℕ,
    v.length = N →
    ts.foldl (tally nc) v = ts.foldl (fun v t => addAt v (bIdx nc N t) 1) v := by
  induction ts with
  | nil => intro v _; rfl
  | cons t ts ih =>
    intro v hv
    rw [List.foldl_cons, List.foldl_cons, tally_eq_addAt, hv,
        ih _ (by rw [addAt_length]; exact hv)]

/-- Length preservation for the `addAt` fold. -/
theorem foldl_addAt_length (f : ℚ → ℕ) (ts : List ℚ) : ∀ v : List ℕ,
    (ts.foldl (fun v t => addAt v (f t) 1) v).length = v.length := by
  induction ts with
  | nil => intro v; rfl
  | cons t ts ih => intro v; rw [List.foldl_cons, ih, addAt_length]

/-- The entries of the `addAt` fold: each in-range entry grows by the number
of list elements sent to its index. -/
theorem foldl_addAt_getD (f : ℚ → ℕ) (ts : List ℚ) : ∀ (v : List ℕ) (k : ℕ),
    k < v.length →
    (ts.foldl (fun v t => addAt v (f t) 1) v).getD k 0 =
      v.getD k 0 + (ts.filter (fun t => f t == k)).length := by
  induction ts with
  | nil => intro v k hk; simp
  | cons t ts ih =>
    intro v k hk
    rw [List.foldl_cons, ih _ k (by rw [addAt_length]; exact hk), addAt_getD]
    by_cases hft : f t = k
    · rw [List.filter_cons_of_pos (by simp [hft])]
      rw [if_pos ⟨hft.symm, hft ▸ hk⟩]
      simp only [List.length_cons]
      omega
    · rw [List.filter_cons_of_neg (by simp [hft])]
      rw [if_neg (fun hc => hft hc.1.symm)]
      omega

/-- The sum of the `addAt` fold grows by one per element when every index is
in range. -/
theorem foldl_addAt_sum (f : ℚ → ℕ) (ts : List ℚ) : ∀ v : List ℕ,
    (∀ t ∈ ts, f t < v.length) →
    (ts.foldl (fun v t => addAt v (f t) 1) v).sum = v.sum + ts.length := by
  induction ts with
  | nil => intro v _; simp
  | cons t ts ih =>
    intro v h
    rw [List.foldl_cons,
        ih _ (fun x hx => by
          rw [addAt_length]; exact h x (List.mem_cons_of_mem t hx)),
        addAt_sum, if_pos (h t (List.mem_cons_self t ts))]
    simp only [List.length_cons]
    omega

/-- The tallying index of a per-second bucket `k < n`: a time lands there
exactly when its floor is `smallest + k`. -/
theorem bIdx_eq_per (smallest : ℤ) (n : ℕ) (k : ℕ) (hk : k < n) (t : ℚ) :
    (bIdx (rangeAux smallest n) (n + 2) t = k) ↔ ⌊t⌋ = smallest + k := by
  unfold bIdx
  by_cases hm : ⌊t⌋ ∈ rangeAux smallest n
  · rw [if_pos hm]
    obtain ⟨h1, h2⟩ := (mem_rangeAux n smallest ⌊t⌋).mp hm
    rw [rangeAux_indexOf n smallest ⌊t⌋ h1 h2]
    omega
  · rw [if_neg hm]
    rw [mem_rangeAux] at hm
    constructor
    · intro h; omega
    · intro h; omega

/-- The tallying index is the overflow index `n` exactly when the floor is
outside `[smallest, largest]`, where `n` is the number of per-second
buckets. -/
theorem bIdx_eq_overflow (smallest largest : ℤ) (n : ℕ)
    (hn : n = (largest + 1 - smallest).toNat) (t : ℚ) :
    (bIdx (rangeAux smallest n) (n + 2) t = n) ↔
      (⌊t⌋ < smallest ∨ largest < ⌊t⌋) := by
  subst hn
  unfold bIdx
  by_cases hm : ⌊t⌋ ∈ rangeAux smallest ((largest + 1 - smallest).toNat)
  · rw [if_pos hm]
    obtain ⟨h1, h2⟩ := (mem_rangeAux _ smallest ⌊t⌋).mp hm
    rw [rangeAux_indexOf _ smallest ⌊t⌋ h1 h2]
    omega
  · rw [if_neg hm]
    rw [mem_rangeAux] at hm
    omega

/-- No valid time is ever tallied at the DNF index `n + 1`. -/
theorem bIdx_ne_last (smallest : ℤ) (n : ℕ) (t : ℚ) :
    bIdx (rangeAux smallest n) (n + 2) t ≠ n + 1 := by
  unfold bIdx
  by_cases hm : ⌊t⌋ ∈ rangeAux smallest n
  · rw [if_pos hm]
    obtain ⟨h1, h2⟩ := (mem_rangeAux n smallest ⌊t⌋).mp hm
    rw [rangeAux_indexOf n smallest ⌊t⌋ h1 h2]
    omega
  · rw [if_neg hm]
    omega

/-- The tallying index is always in range. -/
theorem bIdx_lt (smallest : ℤ) (n : ℕ) (t : ℚ) :
    bIdx (rangeAux smallest n) (n + 2) t < n + 2 := by
  unfold bIdx
  by_cases hm : ⌊t⌋ ∈ rangeAux smallest n
  · rw [if_pos hm]
    obtain ⟨h1, h2⟩ := (mem_rangeAux n smallest ⌊t⌋).mp hm
    rw [rangeAux_indexOf n smallest ⌊t⌋ h1 h2]
    omega
  · rw [if_neg hm]
    omega

/-- Every entry of a replicated zero list is zero. -/
theorem getD_replicate_zero : ∀ (n k : ℕ), (List.replicate n (0 : ℕ)).getD k 0 = 0 := by
  intro n
  induction n with
  | zero => intro k; simp
  | succ m ih =>
    intro k
    cases k with
    | zero => simp [List.replicate]
    | succ kk => simp [List.replicate, ih]

/-- Indexing the generic bucket list: the per-second entries come first, then
the two trailing entries (overflow and DNF). -/
theorem map_rangeAux_append_two_getElem? {α : Type} (g : ℤ → α) (lo : ℤ)
    (n : ℕ) (x y : α) (k : ℕ) :
    ((rangeAux lo n).map g ++ [x, y])[k]? =
      if k < n then some (g (lo + (k : ℤ)))
      else if k = n then some x
      else if k = n + 1 then some y
      else none := by
  rw [List.getElem?_append]
  simp only [List.length_map, rangeAux_length]
  split_ifs with h1 h2 h3
  · rw [List.getElem?_map, rangeAux_getElem?, if_pos h1]
    rfl
  · subst h2
    rw [Nat.sub_self]
    rfl
  · have hkn : k - n = 1 := by omega
    rw [hkn]
    rfl
  · rw [List.getElem?_eq_none
          (by simp only [List.length_cons, List.length_nil]; omega)]

/-- In-range optional indexing of a list of naturals via `getD`. -/
theorem getElem?_eq_getD_of_lt {l : List ℕ} {k : ℕ} (h : k < l.length) :
    l[k]? = some (l.getD k 0) := by
  rw [List.getElem?_eq_getElem h, List.getD_eq_getElem l 0 h]

/-- There are at most as many valid times as rows. -/
theorem validTimes_length_le : ∀ (rows : List Row) (ts : List ℚ),
    validTimes rows = .ok ts → ts.length ≤ rows.length := by
  intro rows
  induction rows with
  | nil =>
    intro ts h
    obtain rfl := Except.ok.inj h
    simp
  | cons row rest ih =>
    intro ts h
    cases hd : row.Time.data with
    | nil => rw [validTimes_nil_time row rest hd] at h; simp at h
    | cons c cs =>
      by_cases hD : c = 'D'
      · subst hD
        rw [validTimes_dnf row rest cs hd] at h
        have := ih ts h
        simp only [List.length_cons]
        omega
      · cases hconv : convert_to_seconds row.P1 with
        | error e =>
          rw [validTimes_parse_error row rest c cs hd hD e hconv] at h
          simp at h
        | ok t =>
          rw [validTimes_valid row rest c cs hd hD t hconv] at h
          cases hvr : validTimes rest with
          | error e => rw [hvr] at h; simp at h
          | ok ts' =>
            rw [hvr] at h
            obtain rfl := Except.ok.inj h
            have := ih ts' hvr
            simp only [List.length_cons]
            omega

/-- A successful `solve_stats` run determines the valid times, and its counts
relate to them as the data model requires. -/
theorem solve_stats_ok_validTimes (rows : List Row) (s : SolveStats)
    (hs : solve_stats rows = .ok s) :
    ∃ ts : List ℚ, validTimes rows = .ok ts ∧ ts.length ≠ 0 ∧
      s.total_solves = rows.length ∧ s.DNFs = rows.length - ts.length := by
  rw [solve_stats_eq] at hs
  cases hvt : validTimes rows with
  | error e => rw [hvt] at hs; simp at hs
  | ok ts =>
    rw [hvt] at hs
    by_cases hlen : ts.length = 0
    · simp [hlen] at hs
    · simp only [hlen, if_false] at hs
      obtain rfl := Except.ok.inj hs
      exact ⟨ts, rfl, hlen, rfl, rfl⟩

/-- The successful result of the histogram builder: the stats values pass
through, the categories are the per-second labels followed by the overflow
and DNF labels, and the values are the tally fold with the DNF count added
to the last entry. -/
theorem data_for_plot_from_shape (total : ℕ) (mean stdev fastest : ℚ)
    (DNFs : ℕ) (rows : List Row) (ts : List ℚ)
    (hvt : validTimes rows = .ok ts) :
    data_for_plot_from total mean stdev fastest DNFs rows =
      .ok (total, mean, stdev, fastest,
        (rangeAux ⌊fastest⌋ ((⌊mean + 2 * stdev⌋ + 1 - ⌊fastest⌋).toNat)).map toString ++
          [toString (⌊mean + 2 * stdev⌋ + 1) ++ "+", "DNF"],
        addAt
          (ts.foldl
            (tally (rangeAux ⌊fastest⌋ ((⌊mean + 2 * stdev⌋ + 1 - ⌊fastest⌋).toNat)))
            (List.replicate ((⌊mean + 2 * stdev⌋ + 1 - ⌊fastest⌋).toNat + 2) 0))
          ((ts.foldl
            (tally (rangeAux ⌊fastest⌋ ((⌊mean + 2 * stdev⌋ + 1 - ⌊fastest⌋).toNat)))
            (List.replicate ((⌊mean + 2 * stdev⌋ + 1 - ⌊fastest⌋).toNat + 2) 0)).length - 1)
          DNFs) := by
  have hcat : ((intRange ⌊fastest⌋ (⌊mean + 2 * stdev⌋ + 1)).map toString ++
      [toString (⌊mean + 2 * stdev⌋ + 1) ++ "+", "DNF"]).length =
      (⌊mean + 2 * stdev⌋ + 1 - ⌊fastest⌋).toNat + 2 := by
    simp [intRange, rangeAux_length]
  simp only [data_for_plot_from, intRange] at hcat ⊢
  rw [hcat, bucketLoop_eq, hvt]

/-- The sum of the final values list: one tally per valid time, plus the DNF
count. -/
theorem histogram_values_sum (smallest : ℤ) (n : ℕ) (DNFs : ℕ) (ts : List ℚ)
    (V : List ℕ)
    (hV : V = ts.foldl (tally (rangeAux smallest n)) (List.replicate (n + 2) 0)) :
    (addAt V (V.length - 1) DNFs).sum = ts.length + DNFs := by
  have hVf : V = ts.foldl
      (fun v t => addAt v (bIdx (rangeAux smallest n) (n + 2) t) 1)
      (List.replicate (n + 2) 0) :=
    hV.trans (foldl_tally_eq _ _ ts _ (by simp))
  have hVlen : V.length = n + 2 := by
    rw [hVf, foldl_addAt_length, List.length_replicate]
  have hVsum : V.sum = ts.length := by
    rw [hVf, foldl_addAt_sum]
    · simp
    · intro t _
      simp only [List.length_replicate]
      exact bIdx_lt smallest _ t
  rw [addAt_sum, hVsum, if_pos (by omega)]

/-- The final values list: the per-second floor counts, then the count of
valid times whose floor lies outside the per-second range, then the DNF
count. -/
theorem histogram_values (smallest largest : ℤ) (n : ℕ)
    (hn : n = (largest + 1 - smallest).toNat) (DNFs : ℕ) (ts : List ℚ)
    (V : List ℕ)
    (hV : V = ts.foldl (tally (rangeAux smallest n)) (List.replicate (n + 2) 0)) :
    addAt V (V.length - 1) DNFs =
      (rangeAux smallest n).map
          (fun i => (ts.filter (fun t => ⌊t⌋ == i)).length) ++
        [(ts.filter (fun t => decide (⌊t⌋ < smallest ∨ largest < ⌊t⌋))).length,
         DNFs] := by
  have hVf : V = ts.foldl
      (fun v t => addAt v (bIdx (rangeAux smallest n) (n + 2) t) 1)
      (List.replicate (n + 2) 0) :=
    hV.trans (foldl_tally_eq _ _ ts _ (by simp))
  have hVlen : V.length = n + 2 := by
    rw [hVf, foldl_addAt_length, List.length_replicate]
  apply List.ext_getElem?
  intro k
  by_cases hk : k < n + 2
  case neg =>
    rw [List.getElem?_eq_none (by rw [addAt_length, hVlen]; omega),
        List.getElem?_eq_none
          (by simp only [List.length_append, List.length_map, rangeAux_length,
                List.length_cons, List.length_nil]; omega)]
  case pos =>
    rw [getElem?_eq_getD_of_lt (by rw [addAt_length, hVlen]; exact hk),
        map_rangeAux_append_two_getElem?, addAt_getD, hVlen]
    have hVg : V.getD k 0 =
        (ts.filter (fun t => bIdx (rangeAux smallest n) (n + 2) t == k)).length := by
      rw [hVf, foldl_addAt_getD _ ts _ k (by rw [List.length_replicate]; exact hk),
          getD_replicate_zero]
      simp
    rw [hVg]
    rcases Nat.lt_trichotomy k n with h1 | h1 | h1
    · rw [if_pos h1, if_neg (by omega : ¬(k = n + 2 - 1 ∧ n + 2 - 1 < n + 2))]
      have hfc : ts.filter (fun t => bIdx (rangeAux smallest n) (n + 2) t == k) =
          ts.filter (fun t => ⌊t⌋ == smallest + (k : ℤ)) := by
        apply List.filter_congr
        intro z _
        rw [Bool.eq_iff_iff]
        simp only [beq_iff_eq]
        exact bIdx_eq_per smallest n k h1 z
      rw [hfc]
      simp only [Nat.add_zero]
    · rw [if_neg (by omega : ¬(k < n)), if_pos h1,
          if_neg (by omega : ¬(k = n + 2 - 1 ∧ n + 2 - 1 < n + 2))]
      have hfc : ts.filter (fun t => bIdx (rangeAux smallest n) (n + 2) t == k) =
          ts.filter (fun t => decide (⌊t⌋ < smallest ∨ largest < ⌊t⌋)) := by
        apply List.filter_congr
        intro z _
        rw [Bool.eq_iff_iff]
        simp only [beq_iff_eq, decide_eq_true_eq]
        rw [h1]
        exact bIdx_eq_overflow smallest largest n hn z
      rw [hfc]
      simp only [Nat.add_zero]
    · have hk1 : k = n + 1 := by omega
      subst hk1
      rw [if_neg (by omega : ¬(n + 1 < n)), if_neg (by omega : ¬(n + 1 = n)),
          if_pos rfl,
          if_pos (by omega : n + 1 = n + 2 - 1 ∧ n + 2 - 1 < n + 2)]
      have hfc : ts.filter (fun t => bIdx (rangeAux smallest n) (n + 2) t == n + 1) =
          [] := by
        rw [List.filter_eq_nil_iff]
        intro z _
        simp only [beq_iff_eq]
        exact bIdx_ne_last smallest n z
      rw [hfc]
      simp only [List.length_nil, Nat.zero_add]

/-! ## Claims about the Histogram Builder -/

/-- C2: for every record list on which the pipeline succeeds (which requires
at least one valid record), the bucket counts sum to the total record count,
failures included. The standard deviation is a parameter because the source
computes it with `math.sqrt`; the histogram depends on it only through
`⌊mean + 2*stdev⌋`, and the theorem holds for every value of it. -/
theorem C2_sum_bucket_counts_eq_total_count (stdev : ℚ) (rows : List Row)
    (t : ℕ) (m sd f : ℚ) (cats : List String) (vals : List ℕ)
    (h : data_for_plot_with stdev rows = .ok (t, m, sd, f, cats, vals)) :
    vals.sum = t ∧ t = rows.length := by
  unfold data_for_plot_with at h
  cases hss : solve_stats rows with
  | error e => rw [hss] at h; simp at h
  | ok s =>
    rw [hss] at h
    replace h : data_for_plot_from s.total_solves s.mean stdev s.fastest_solve
        s.DNFs rows = .ok (t, m, sd, f, cats, vals) := h
    obtain ⟨ts, hvt, hlen, htot, hdnf⟩ := solve_stats_ok_validTimes rows s hss
    rw [data_for_plot_from_shape s.total_solves s.mean stdev s.fastest_solve
        s.DNFs rows ts hvt] at h
    have h6 := Except.ok.inj h
    simp only [Prod.mk.injEq] at h6
    obtain ⟨rfl, -, -, -, -, rfl⟩ := h6
    have hle := validTimes_length_le rows ts hvt
    have hsum := histogram_values_sum ⌊s.fastest_solve⌋
      ((⌊s.mean + 2 * stdev⌋ + 1 - ⌊s.fastest_solve⌋).toNat) s.DNFs ts _ rfl
    refine ⟨?_, htot⟩
    omega

/-- Witness for C2: two records, one valid (12.34 s) and one DNF. -/
theorem C2_sum_bucket_counts_eq_total_count_witness :
    data_for_plot_with 1 [⟨"12.34", "12.34"⟩, ⟨"DNF", "5.0"⟩] =
      .ok (2, 12.34, 1, 12.34, ["12", "13", "14", "15+", "DNF"],
           [1, 0, 0, 0, 1]) ∧
    ([1, 0, 0, 0, 1] : List ℕ).sum = 2 ∧
    2 = ([⟨"12.34", "12.34"⟩, ⟨"DNF", "5.0"⟩] : List Row).length := by
  have h : data_for_plot_with 1 [⟨"12.34", "12.34"⟩, ⟨"DNF", "5.0"⟩] =
      .ok (2, 12.34, 1, 12.34, ["12", "13", "14", "15+", "DNF"],
           [1, 0, 0, 0, 1]) := rfl
  exact ⟨h, C2_sum_bucket_counts_eq_total_count 1 _ 2 12.34 1 12.34 _ _ h⟩

/-- C3: the last bucket count (the DNF bucket) equals the failure count,
total minus valid; no valid record is counted there, since the bucket holds
exactly the DNF count. -/
theorem C3_dnf_bucket_eq_failure_count (stdev : ℚ) (rows : List Row)
    (s : SolveStats) (ts : List ℚ) (t : ℕ) (m sd f : ℚ)
    (cats : List String) (vals : List ℕ)
    (hs : solve_stats rows = .ok s) (hvt : validTimes rows = .ok ts)
    (h : data_for_plot_with stdev rows = .ok (t, m, sd, f, cats, vals)) :
    vals.getLast? = some s.DNFs ∧ s.DNFs = rows.length - ts.length := by
  unfold data_for_plot_with at h
  rw [hs] at h
  replace h : data_for_plot_from s.total_solves s.mean stdev s.fastest_solve
      s.DNFs rows = .ok (t, m, sd, f, cats, vals) := h
  rw [data_for_plot_from_shape s.total_solves s.mean stdev s.fastest_solve
      s.DNFs rows ts hvt] at h
  have h6 := Except.ok.inj h
  simp only [Prod.mk.injEq] at h6
  obtain ⟨-, -, -, -, -, rfl⟩ := h6
  constructor
  · obtain ⟨n, hn⟩ : ∃ nn : ℕ,
        nn = (⌊s.mean + 2 * stdev⌋ + 1 - ⌊s.fastest_solve⌋).toNat := ⟨_, rfl⟩
    rw [← hn,
      histogram_values ⌊s.fastest_solve⌋ ⌊s.mean + 2 * stdev⌋ n hn s.DNFs ts _ rfl,
      List.getLast?_eq_getElem?]
    have hlen2 : (((rangeAux ⌊s.fastest_solve⌋ n).map
        (fun i => (ts.filter (fun t => ⌊t⌋ == i)).length)) ++
        [(ts.filter (fun t => decide (⌊t⌋ < ⌊s.fastest_solve⌋ ∨
            ⌊s.mean + 2 * stdev⌋ < ⌊t⌋))).length, s.DNFs]).length = n + 2 := by
      simp [rangeAux_length]
    rw [hlen2, map_rangeAux_append_two_getElem?,
        if_neg (by omega : ¬(n + 2 - 1 < n)), if_neg (by omega : ¬(n + 2 - 1 = n)),
        if_pos (by omega : n + 2 - 1 = n + 1)]
  · obtain ⟨ts', hvt', hlen', htot', hdnf'⟩ := solve_stats_ok_validTimes rows s hs
    obtain rfl : ts' = ts := Except.ok.inj (hvt'.symm.trans hvt)
    exact hdnf'

/-- Witness for C3: two records, one valid and one DNF; the last count is the
single DNF. -/
theorem C3_dnf_bucket_eq_failure_count_witness :
    solve_stats [⟨"12.34", "12.34"⟩, ⟨"DNF", "5.0"⟩] =
      .ok ⟨2, 12.34, 0, 12.34, 1⟩ ∧
    validTimes [⟨"12.34", "12.34"⟩, ⟨"DNF", "5.0"⟩] = .ok [12.34] ∧
    ([1, 0, 0, 0, 1] : List ℕ).getLast? =
      some (⟨2, 12.34, 0, 12.34, 1⟩ : SolveStats).DNFs ∧
    (⟨2, 12.34, 0, 12.34, 1⟩ : SolveStats).DNFs =
      ([⟨"12.34", "12.34"⟩, ⟨"DNF", "5.0"⟩] : List Row).length -
        ([(12.34 : ℚ)] : List ℚ).length := by
  have hs : solve_stats [⟨"12.34", "12.34"⟩, ⟨"DNF", "5.0"⟩] =
      .ok ⟨2, 12.34, 0, 12.34, 1⟩ := rfl
  have hvt : validTimes [⟨"12.34", "12.34"⟩, ⟨"DNF", "5.0"⟩] = .ok [12.34] := rfl
  have h : data_for_plot_with 1 [⟨"12.34", "12.34"⟩, ⟨"DNF", "5.0"⟩] =
      .ok (2, 12.34, 1, 12.34, ["12", "13", "14", "15+", "DNF"],
           [1, 0, 0, 0, 1]) := rfl
  exact ⟨hs, hvt,
    C3_dnf_bucket_eq_failure_count 1 _ _ _ 2 12.34 1 12.34 _ _ hs hvt h⟩

/-- C6: the bucket labels are, in order, the decimal string of every integer
from ⌊fastest⌋ to ⌊mean + 2*stdev⌋ inclusive, then the overflow label
"(largest+1)+", then "DNF"; and the counts list has the same length as the
labels. -/
theorem C6_bucket_labels_structure (total : ℕ) (mean stdev fastest : ℚ)
    (DNFs : ℕ) (rows : List Row) (ts : List ℚ) (t : ℕ) (m sd f : ℚ)
    (cats : List String) (vals : List ℕ)
    (hvt : validTimes rows = .ok ts)
    (h : data_for_plot_from total mean stdev fastest DNFs rows =
      .ok (t, m, sd, f, cats, vals)) :
    cats.length = (⌊mean + 2 * stdev⌋ + 1 - ⌊fastest⌋).toNat + 2 ∧
    vals.length = cats.length ∧
    (∀ k : ℕ, k < (⌊mean + 2 * stdev⌋ + 1 - ⌊fastest⌋).toNat →
      cats[k]? = some (toString (⌊fastest⌋ + (k : ℤ)))) ∧
    cats[(⌊mean + 2 * stdev⌋ + 1 - ⌊fastest⌋).toNat]? =
      some (toString (⌊mean + 2 * stdev⌋ + 1) ++ "+") ∧
    cats[(⌊mean + 2 * stdev⌋ + 1 - ⌊fastest⌋).toNat + 1]? = some "DNF" := by
  rw [data_for_plot_from_shape total mean stdev fastest DNFs rows ts hvt] at h
  have h6 := Except.ok.inj h
  simp only [Prod.mk.injEq] at h6
  obtain ⟨-, -, -, -, rfl, rfl⟩ := h6
  obtain ⟨n, hn⟩ : ∃ nn : ℕ,
      nn = (⌊mean + 2 * stdev⌋ + 1 - ⌊fastest⌋).toNat := ⟨_, rfl⟩
  rw [← hn]
  have hcl : ((rangeAux ⌊fastest⌋ n).map toString ++
      [toString (⌊mean + 2 * stdev⌋ + 1) ++ "+", "DNF"]).length = n + 2 := by
    simp [rangeAux_length]
  refine ⟨hcl, ?_, ?_, ?_, ?_⟩
  · rw [hcl, addAt_length, foldl_tally_eq _ (n + 2) ts _ (by simp),
        foldl_addAt_length, List.length_replicate]
  · intro k hk
    rw [map_rangeAux_append_two_getElem?, if_pos hk]
  · rw [map_rangeAux_append_two_getElem?, if_neg (by omega : ¬(n < n)),
        if_pos rfl]
  · rw [map_rangeAux_append_two_getElem?, if_neg (by omega : ¬(n + 1 < n)),
        if_neg (by omega : ¬(n + 1 = n)), if_pos rfl]

/-- Witness for C6: the spec's example, fastest 10.5, mean 15, stdev 2:
labels "10" through "19", then "20+", then "DNF", twelve in total. -/
theorem C6_bucket_labels_structure_witness :
    validTimes [⟨"10.5", "10.5"⟩] = .ok [10.5] ∧
    data_for_plot_from 1 15 2 (21/2) 0 [⟨"10.5", "10.5"⟩] =
      .ok (1, 15, 2, 21/2,
        ["10", "11", "12", "13", "14", "15", "16", "17", "18", "19", "20+", "DNF"],
        [1, 0, 0, 0, 0, 0, 0, 0, 0, 0, 0, 0]) ∧
    (["10", "11", "12", "13", "14", "15", "16", "17", "18", "19", "20+", "DNF"] :
        List String).length =
      (⌊(15 : ℚ) + 2 * 2⌋ + 1 - ⌊(21/2 : ℚ)⌋).toNat + 2 := by
  have hvt : validTimes [⟨"10.5", "10.5"⟩] = .ok [10.5] := rfl
  have h : data_for_plot_from 1 15 2 (21/2) 0 [⟨"10.5", "10.5"⟩] =
      .ok (1, 15, 2, 21/2,
        ["10", "11", "12", "13", "14", "15", "16", "17", "18", "19", "20+", "DNF"],
        [1, 0, 0, 0, 0, 0, 0, 0, 0, 0, 0, 0]) := rfl
  exact ⟨hvt, h,
    (C6_bucket_labels_structure 1 15 2 (21/2) 0 _ _ 1 15 2 (21/2) _ _ hvt h).1⟩

/-- C8: each valid record is counted in exactly one bucket: the per-second
bucket of its floored time when that floor lies between ⌊fastest⌋ and
⌊mean + 2*stdev⌋, and otherwise the overflow bucket — which also receives
floors below ⌊fastest⌋, without any failure. -/
theorem C8_valid_record_exactly_one_bucket (total : ℕ)
    (mean stdev fastest : ℚ) (DNFs : ℕ) (rows : List Row) (ts : List ℚ)
    (t : ℕ) (m sd f : ℚ) (cats : List String) (vals : List ℕ)
    (hvt : validTimes rows = .ok ts)
    (h : data_for_plot_from total mean stdev fastest DNFs rows =
      .ok (t, m, sd, f, cats, vals)) :
    (∀ k : ℕ, k < (⌊mean + 2 * stdev⌋ + 1 - ⌊fastest⌋).toNat →
      vals[k]? = some ((ts.filter (fun x => ⌊x⌋ == ⌊fastest⌋ + (k : ℤ))).length)) ∧
    vals[(⌊mean + 2 * stdev⌋ + 1 - ⌊fastest⌋).toNat]? =
      some ((ts.filter (fun x =>
        decide (⌊x⌋ < ⌊fastest⌋ ∨ ⌊mean + 2 * stdev⌋ < ⌊x⌋))).length) := by
  rw [data_for_plot_from_shape total mean stdev fastest DNFs rows ts hvt] at h
  have h6 := Except.ok.inj h
  simp only [Prod.mk.injEq] at h6
  obtain ⟨-, -, -, -, -, rfl⟩ := h6
  obtain ⟨n, hn⟩ : ∃ nn : ℕ,
      nn = (⌊mean + 2 * stdev⌋ + 1 - ⌊fastest⌋).toNat := ⟨_, rfl⟩
  rw [← hn,
    histogram_values ⌊fastest⌋ ⌊mean + 2 * stdev⌋ n hn DNFs ts _ rfl]
  constructor
  · intro k hk
    rw [map_rangeAux_append_two_getElem?, if_pos hk]
  · rw [map_rangeAux_append_two_getElem?, if_neg (by omega : ¬(n < n)),
        if_pos rfl]

/-- Witness for C8: a single valid record of 10.5 seconds falls in the first
per-second bucket. -/
theorem C8_valid_record_exactly_one_bucket_witness :
    validTimes [⟨"10.5", "10.5"⟩] = .ok [10.5] ∧
    data_for_plot_from 1 15 2 (21/2) 0 [⟨"10.5", "10.5"⟩] =
      .ok (1, 15, 2, 21/2,
        ["10", "11", "12", "13", "14", "15", "16", "17", "18", "19", "20+", "DNF"],
        [1, 0, 0, 0, 0, 0, 0, 0, 0, 0, 0, 0]) ∧
    (0 : ℕ) < (⌊(15 : ℚ) + 2 * 2⌋ + 1 - ⌊(21/2 : ℚ)⌋).toNat ∧
    ([1, 0, 0, 0, 0, 0, 0, 0, 0, 0, 0, 0] : List ℕ)[(0 : ℕ)]? =
      some ((([(10.5 : ℚ)] : List ℚ).filter
        (fun x => ⌊x⌋ == ⌊(21/2 : ℚ)⌋ + ((0 : ℕ) : ℤ))).length) := by
  have hvt : validTimes [⟨"10.5", "10.5"⟩] = .ok [10.5] := rfl
  have h : data_for_plot_from 1 15 2 (21/2) 0 [⟨"10.5", "10.5"⟩] =
      .ok (1, 15, 2, 21/2,
        ["10", "11", "12", "13", "14", "15", "16", "17", "18", "19", "20+", "DNF"],
        [1, 0, 0, 0, 0, 0, 0, 0, 0, 0, 0, 0]) := rfl
  have hk : (0 : ℕ) < (⌊(15 : ℚ) + 2 * 2⌋ + 1 - ⌊(21/2 : ℚ)⌋).toNat := by decide
  exact ⟨hvt, h, hk,
    (C8_valid_record_exactly_one_bucket 1 15 2 (21/2) 0 _ _ 1 15 2 (21/2) _ _
      hvt h).1 0 hk⟩

/-- C9: when ⌊mean + 2*stdev⌋ < ⌊fastest⌋ the per-second range is empty: the
histogram has exactly the overflow bucket and the DNF bucket, and every
valid record is counted in the overflow bucket. -/
theorem C9_empty_per_second_range (total : ℕ) (mean stdev fastest : ℚ)
    (DNFs : ℕ) (rows : List Row) (ts : List ℚ) (t : ℕ) (m sd f : ℚ)
    (cats : List String) (vals : List ℕ)
    (hvt : validTimes rows = .ok ts)
    (hdeg : ⌊mean + 2 * stdev⌋ < ⌊fastest⌋)
    (h : data_for_plot_from total mean stdev fastest DNFs rows =
      .ok (t, m, sd, f, cats, vals)) :
    cats = [toString (⌊mean + 2 * stdev⌋ + 1) ++ "+", "DNF"] ∧
    vals = [ts.length, DNFs] := by
  rw [data_for_plot_from_shape total mean stdev fastest DNFs rows ts hvt] at h
  have h6 := Except.ok.inj h
  simp only [Prod.mk.injEq] at h6
  obtain ⟨-, -, -, -, rfl, rfl⟩ := h6
  have hn0 : (⌊mean + 2 * stdev⌋ + 1 - ⌊fastest⌋).toNat = 0 := by omega
  rw [hn0]
  constructor
  · rfl
  · rw [histogram_values ⌊fastest⌋ ⌊mean + 2 * stdev⌋ 0 (by omega) DNFs ts _ rfl]
    have hfull : ts.filter
        (fun z => decide (⌊z⌋ < ⌊fastest⌋ ∨ ⌊mean + 2 * stdev⌋ < ⌊z⌋)) = ts := by
      rw [List.filter_eq_self]
      intro z _
      simp only [decide_eq_true_eq]
      omega
    show [(ts.filter
        (fun z => decide (⌊z⌋ < ⌊fastest⌋ ∨ ⌊mean + 2 * stdev⌋ < ⌊z⌋))).length,
      DNFs] = [ts.length, DNFs]
    rw [hfull]

/-- Witness for C9: fastest 5 with mean 1 and stdev 0 gives an empty
per-second range; the single valid record lands in the overflow bucket. -/
theorem C9_empty_per_second_range_witness :
    validTimes [⟨"5.0", "5.0"⟩] = .ok [5] ∧
    (⌊(1 : ℚ) + 2 * 0⌋ < ⌊(5 : ℚ)⌋) ∧
    data_for_plot_from 1 1 0 5 3 [⟨"5.0", "5.0"⟩] =
      .ok (1, 1, 0, 5, ["2+", "DNF"], [1, 3]) ∧
    (["2+", "DNF"] : List String) =
      [toString (⌊(1 : ℚ) + 2 * 0⌋ + 1) ++ "+", "DNF"] ∧
    ([1, 3] : List ℕ) = [([(5 : ℚ)] : List ℚ).length, 3] := by
  have hvt : validTimes [⟨"5.0", "5.0"⟩] = .ok [5] := rfl
  have hdeg : ⌊(1 : ℚ) + 2 * 0⌋ < ⌊(5 : ℚ)⌋ := by decide
  have h : data_for_plot_from 1 1 0 5 3 [⟨"5.0", "5.0"⟩] =
      .ok (1, 1, 0, 5, ["2+", "DNF"], [1, 3]) := rfl
  exact ⟨hvt, hdeg, h,
    C9_empty_per_second_range 1 1 0 5 3 _ _ 1 1 0 5 _ _ hvt hdeg h⟩

/-! Sanity checks: the embedded program evaluated on concrete inputs. -/

example : convert_to_seconds "12.34" = .ok 12.34 := rfl
example : convert_to_seconds "1:23.45" = .ok 83.45 := rfl
example : convert_to_seconds "1:1:1" = .ok 1 := rfl
example : convert_to_seconds "-3.5" = .ok (-3.5) := rfl
example : convert_to_seconds "DNF" = .error .valueError := rfl
example :
    solve_stats [⟨"12.1", "12.1"⟩, ⟨"13.5", "13.5"⟩, ⟨"DNF", "10.0"⟩, ⟨"14.0", "14.0"⟩] =
      .ok ⟨4, 13.2, 97/150, 12.1, 1⟩ := rfl
example : solve_stats [⟨"DNF", "1.0"⟩, ⟨"DNF", "2.0"⟩] = .error .zeroDivisionError := rfl
example : solve_stats [] = .error .zeroDivisionError := rfl
example :
    data_for_plot_from 1 15 2 (21/2) 0 [⟨"10.5", "10.5"⟩] =
      .ok (1, 15, 2, 21/2,
        ["10", "11", "12", "13", "14", "15", "16", "17", "18", "19", "20+", "DNF"],
        [1, 0, 0, 0, 0, 0, 0, 0, 0, 0, 0, 0]) := rfl
example :
    validTimes [⟨"12.1", "12.1"⟩, ⟨"DNF", "9.0"⟩, ⟨"14.0", "14.0"⟩] =
      .ok [12.1, 14.0] := rfl

end CsTimer
